import Mathlib

/-!
Verification of the move-tree core of the centichess repository
(`src/components/moves/MoveTree.js`).

The JavaScript code is shallowly embedded: node objects are held in an
association-list arena keyed by node id (`nodeMap`), the mainline holds the
node records themselves (JS shares the objects by reference, so every
mutation of a node that sits on the mainline is applied both to the arena
entry and to the mainline entry), and child / parent links are stored as
ids, resolved through the arena, exactly as the source resolves them
through `this.nodeMap`.  The external chess rules engine (chess.js) is out
of scope for the repository and is modelled as an abstract, deterministic
`RulesEngine` record of the operations the tree invokes on it.
-/

set_option maxRecDepth 10000

/-- The structured move object produced by the rules engine's verbose
history and consumed by `addMove` / `findExistingMove` (fields `san`,
`lan`, `from`, `to`, `promotion`, `color` of chess.js verbose moves;
`from` is a Lean keyword, hence `fromSq` / `toSq`). -/
structure MoveDetail where
  san : String
  lan : String := ""
  fromSq : String
  toSq : String
  promotion : Option String := none
  color : String := ""
deriving DecidableEq, Repr

/-- `move.classification` object of an analysis result (`MoveClassifier`
is external; only its `type` field is read by `updateClassification`). -/
structure ClassificationInfo where
  type : String
deriving DecidableEq, Repr

/-- One entry of `move.lines` of an analysis result. -/
structure EvalLine where
  id : Int
  score : Int
  type : Option String := none
deriving DecidableEq, Repr

/-- The analysis result object passed to `updateClassification`. -/
structure AnalysisMove where
  classification : ClassificationInfo
  lines : Option (List EvalLine) := none
deriving DecidableEq, Repr

/-- One record produced by `extractClockAnnotations`:
`{ moveIndex, color, clock }`. -/
structure ClockEntry where
  moveIndex : Nat
  color : String
  clock : String
deriving DecidableEq, Repr

/-- A tree node (`MoveNode` of the spec).  `children` and `parentId` are
ids resolved through the arena.  `moveNumber` is a rational because the
source stores `n` for White and `n + 0.5` for Black. -/
structure MoveNode where
  id : String
  moveNumber : Option ℚ
  san : Option String
  move : Option MoveDetail
  fen : Option String
  children : List String
  isMainline : Bool
  parentIndex : Option Int := none
  parentId : Option String := none
  clock : Option String := none
  classification : Option String := none
  evaluatedMove : Option AnalysisMove := none
  evalScore : Option Int := none
  evalType : Option String := none
deriving DecidableEq, Repr

/-- The tree state (`this` of the `MoveTree` class).  `mainline` holds the
node records; `currentNode` / `final` hold node ids (the source holds the
objects themselves; ids are the faithful handle in the arena model). -/
structure MoveTree where
  mainline : List MoveNode
  nodeMap : List (String × MoveNode)
  currentNode : Option String
  final : Option String
  idCounter : Nat
  currentIndex : Int
  clockData : List ClockEntry := []
deriving DecidableEq, Repr

/-- `Map.prototype.get`: first entry with the given key. -/
def mapGet (m : List (String × MoveNode)) (k : String) : Option MoveNode :=
  match m with
  | [] => none
  | e :: rest => if e.1 == k then some e.2 else mapGet rest k

/-- `Map.prototype.set`: replace the entry if the key is present, append
otherwise. -/
def mapSet (m : List (String × MoveNode)) (k : String) (v : MoveNode) : List (String × MoveNode) :=
  if m.any (fun e => e.1 == k) then m.map (fun e => if e.1 == k then (k, v) else e)
  else m ++ [(k, v)]

/-- The external rules engine (chess.js), specified at its interface
boundary: deterministic operations over position encodings.  `parsePgn`
is `loadPgn` followed by `history({verbose: true})`; `applyMove` is
`load(fen); move(m); fen()`; `turn` and `moveNumberOf` read the side to
move and the move number of a loaded position. -/
structure RulesEngine where
  initialFen : String
  parsePgn : String → List MoveDetail
  applyMove : Option String → MoveDetail → String
  turn : Option String → String
  moveNumberOf : Option String → Nat

/- ### The clock-annotation extractor (`extractClockAnnotations`)

The source is regex-driven; the regexes are embedded as character-level
scanners with the same matching discipline (leftmost match, greedy atoms,
`/g` continuation after each match). -/

/-- JS `\s` on the whitespace characters that occur in PGN text. -/
def isSpaceC (c : Char) : Bool :=
  c == ' ' || c == '\t' || c == '\n' || c == '\r'

/-- Opening curly brace (kept out of literals for the benefit of tooling). -/
def lbr : Char := Char.ofNat 123

/-- Closing curly brace. -/
def rbr : Char := Char.ofNat 125

/-- Does `pat` start the list `hay`? -/
def startsWithList : List Char → List Char → Bool
  | [], _ => true
  | _ :: _, [] => false
  | p :: ps, c :: cs => p == c && startsWithList ps cs

/-- First index (counting from `i`) at which `pat` occurs in the list. -/
def idxOfFrom (pat : List Char) : List Char → Nat → Option Nat
  | [], i => if startsWithList pat [] then some i else none
  | hay@(_ :: tl), i => if startsWithList pat hay then some i else idxOfFrom pat tl (i + 1)

/-- JS `String.prototype.indexOf`: first occurrence or `-1`. -/
def idxOf (hay pat : List Char) : Int :=
  match idxOfFrom pat hay 0 with
  | some i => (i : Int)
  | none => -1

/-- Strip leading and trailing whitespace (JS `trim`). -/
def trimChars (cs : List Char) : List Char :=
  ((cs.dropWhile isSpaceC).reverse.dropWhile isSpaceC).reverse

/-- Split on newline characters. -/
def splitOnNl : List Char → List (List Char)
  | [] => [[]]
  | c :: cs =>
      if c == '\n' then [] :: splitOnNl cs
      else
        match splitOnNl cs with
        | l :: ls => (c :: l) :: ls
        | [] => [[c]]

/-- Rejoin lines with newline characters. -/
def joinNl : List (List Char) → List Char
  | [] => []
  | [l] => l
  | l :: ls => l ++ '\n' :: joinNl ls

/-- A line matched by the header regex `^\[[\s\S]*?\]\s*$` (modelled for
single-line `[Key "Value"]` headers: starts with `[` and, after trailing
whitespace, ends with `]`). -/
def isHeaderLine (l : List Char) : Bool :=
  match l with
  | [] => false
  | c :: _ => c == '[' && ((l.reverse.dropWhile isSpaceC).head? == some ']')

/-- `pgn.replace(headerRegex, '')`: blank out header lines. -/
def stripHeaderLines (cs : List Char) : List Char :=
  joinNl ((splitOnNl cs).map (fun l => if isHeaderLine l then [] else l))

/-- The literal marker of the clock pattern. -/
def clkMarker : List Char := ['[', '%', 'c', 'l', 'k']

/-- Match the body of the clock regex `\{[^}]*\[%clk\s+([^\]]+)\][^}]*\}`
just after an opening brace: the comment body runs up to the first
closing brace and must contain the marker, mandatory whitespace and a
non-empty capture terminated by `]`.  Returns the raw capture and the
number of characters consumed after the opening brace (body + closing
brace). -/
def matchClockBody (rest : List Char) : Option (String × Nat) :=
  let body := rest.takeWhile (fun c => !(c == rbr))
  match rest.drop body.length with
  | [] => none
  | _ :: _ =>
    match idxOfFrom clkMarker body 0 with
    | none => none
    | some i =>
      let afterMarker := body.drop (i + clkMarker.length)
      let ws := afterMarker.takeWhile isSpaceC
      if ws.isEmpty then none
      else
        let cap := (afterMarker.drop ws.length).takeWhile (fun c => !(c == ']'))
        if cap.isEmpty then none
        else
          match afterMarker.drop (ws.length + cap.length) with
          | ']' :: _ => some (String.mk cap, body.length + 1)
          | _ => none

/-- `moveText.matchAll(clockRegex)` (fuelled: every step consumes at
least one character, so fuel `cs.length` never runs out). -/
def findClockMatchesAux (fuel : Nat) (cs : List Char) (pos : Nat) : List (Nat × String) :=
  match fuel, cs with
  | _, [] => []
  | 0, _ :: _ => []
  | fuel + 1, c :: rest =>
    if c == lbr then
      match matchClockBody rest with
      | some (val, blen) =>
          (pos, val) :: findClockMatchesAux fuel (rest.drop blen) (pos + 1 + blen)
      | none => findClockMatchesAux fuel rest (pos + 1)
    else findClockMatchesAux fuel rest (pos + 1)

/-- Every clock comment with its character offset, scanning left to
right and resuming after each match. -/
def findClockMatches (cs : List Char) (pos : Nat) : List (Nat × String) :=
  findClockMatchesAux cs.length cs pos

/-- The optional `(?:\s+\{[^}]*\})?` group of the move regex: mandatory
whitespace, then a braced comment.  Returns the consumed length (0 when
the group does not match) and the remaining text. -/
def tryBraceGroup (cs : List Char) : Nat × List Char :=
  let ws := cs.takeWhile isSpaceC
  if ws.isEmpty then (0, cs)
  else
    match cs.drop ws.length with
    | c :: r =>
      if c == lbr then
        let body := r.takeWhile (fun c2 => !(c2 == rbr))
        match r.drop body.length with
        | _ :: r2 => (ws.length + 1 + body.length + 1, r2)
        | [] => (0, cs)
      else (0, cs)
    | [] => (0, cs)

/-- A move-token character: neither whitespace nor an opening brace
(`[^\s{]`). -/
def isMoveTokenC (c : Char) : Bool := !(isSpaceC c) && !(c == lbr)

/-- Match the move regex
`\d+\.\s*([^\s{]+)(?:\s+\{[^}]*\})?\s*([^\s{]+)?(?:\s+\{[^}]*\})?`
at the head of `cs`: returns the match length, the White token and the
optional Black token. -/
def matchMoveAt (cs : List Char) : Option (Nat × List Char × Option (List Char)) :=
  let digits := cs.takeWhile Char.isDigit
  if digits.isEmpty then none
  else
    match cs.drop digits.length with
    | '.' :: r2 =>
      let ws1 := r2.takeWhile isSpaceC
      let r3 := r2.drop ws1.length
      let white := r3.takeWhile isMoveTokenC
      if white.isEmpty then none
      else
        let r4 := r3.drop white.length
        let g1 := tryBraceGroup r4
        let ws2 := g1.2.takeWhile isSpaceC
        let r6 := g1.2.drop ws2.length
        let blackT := r6.takeWhile isMoveTokenC
        if blackT.isEmpty then
          some (digits.length + 1 + ws1.length + white.length + g1.1 + ws2.length, white, none)
        else
          let r7 := r6.drop blackT.length
          let g2 := tryBraceGroup r7
          some (digits.length + 1 + ws1.length + white.length + g1.1 + ws2.length
                  + blackT.length + g2.1, white, some blackT)
    | _ => none

/-- One match of the global move regex: offset, full matched text
(`match[0]`), White token (`match[1]`) and optional Black token
(`match[2]`). -/
structure MoveMatch where
  index : Nat
  text : List Char
  white : List Char
  black : Option (List Char)
deriving DecidableEq, Repr

/-- The `moveRegex.exec` loop (fuelled; the move regex never matches the
empty string, so the guard `max _ 1` never changes the step and every
step consumes at least one character). -/
def findMoveMatchesAux (fuel : Nat) (cs : List Char) (pos : Nat) : List MoveMatch :=
  match fuel, cs with
  | _, [] => []
  | 0, _ :: _ => []
  | fuel + 1, _ :: rest =>
    match matchMoveAt cs with
    | some (len, w, b) =>
        ⟨pos, cs.take len, w, b⟩ ::
          findMoveMatchesAux fuel (rest.drop (max len 1 - 1)) (pos + max len 1)
    | none => findMoveMatchesAux fuel rest (pos + 1)

/-- Leftmost matches of the global move regex, resuming after each
match. -/
def findMoveMatches (cs : List Char) (pos : Nat) : List MoveMatch :=
  findMoveMatchesAux cs.length cs pos

/-- The inner `for` loop of the extractor: the first clock match at an
index strictly beyond `pos`, scanning from absolute position `i`
(`clocks` is already dropped to position `i`). -/
def innerClockScanAux (pos : Int) : List (Nat × String) → Nat → Option Nat
  | [], _ => none
  | cm :: rest, i => if pos < (cm.1 : Int) then some i else innerClockScanAux pos rest (i + 1)

/-- Process one move token: if the current clock match (`clockIndex`)
lies beyond the token, consume the first clock match beyond the token and
record it for `moveIndex`; otherwise leave both the records and the
clock cursor untouched. -/
def alignStep (clocks : List (Nat × String)) (acc : List ClockEntry) (ci : Nat)
    (moveIndex : Nat) (colorName : String) (pos : Int) : List ClockEntry × Nat :=
  match clocks.get? ci with
  | some cm =>
    if pos < (cm.1 : Int) then
      match innerClockScanAux pos (clocks.drop ci) ci with
      | some i =>
        match clocks.get? i with
        | some cm2 => (acc ++ [⟨moveIndex, colorName, String.mk (trimChars cm2.2.data)⟩], i + 1)
        | none => (acc, ci)
      | none => (acc, ci)
    else (acc, ci)
  | none => (acc, ci)

/-- The `while ((match = moveRegex.exec(moveText)))` loop: walk the move
matches, advancing `moveIndex` per token and the clock cursor per
consumed clock match. -/
def alignLoop (clocks : List (Nat × String)) :
    List MoveMatch → Nat → Nat → List ClockEntry → List ClockEntry
  | [], _, _, acc => acc
  | mm :: rest, moveIndex, ci, acc =>
    let wpos : Int := (mm.index : Int) + idxOf mm.text mm.white
    let s1 := alignStep clocks acc ci moveIndex "white" wpos
    let mi1 := moveIndex + 1
    match mm.black with
    | some b =>
      let bpos : Int := (mm.index : Int) + idxOf mm.text b
      let s2 := alignStep clocks s1.1 s1.2 mi1 "black" bpos
      alignLoop clocks rest (mi1 + 1) s2.2 s2.1
    | none => alignLoop clocks rest mi1 s1.2 s1.1

/-- `extractClockAnnotations(pgn)`: strip headers, trim, collect the
clock comments (early exit when there are none), then align them with the
move tokens. -/
def extractClockAnnotationList (pgn : String) : List ClockEntry :=
  let moveText := trimChars (stripHeaderLines pgn.data)
  let clocks := findClockMatches moveText 0
  if clocks.isEmpty then []
  else alignLoop clocks (findMoveMatches moveText 0) 0 0 []

/- ### The move tree -/

/-- `san.replace(/[+#]/g, m => m === '+' ? 'check' : 'mate')`. -/
def sanitizeChars : List Char → List Char
  | [] => []
  | c :: cs =>
      (if c = '+' then "check".data else if c = '#' then "mate".data else [c]) ++ sanitizeChars cs

/-- Sanitized move text used inside node ids. -/
def sanitizeSan (san : String) : String := String.mk (sanitizeChars san.data)

/-- The deterministic mainline node id of `buildFromPGN`:
`move_${moveNumber}_${w|b}_${sanitized san}`. -/
def mainlineNodeId (mn : Nat) (isWhite : Bool) (san : String) : String :=
  "move_" ++ toString mn ++ "_" ++ (if isWhite then "w" else "b") ++ "_" ++ sanitizeSan san

/-- The root node installed by the constructor (note: the constructor
gives the root `moveNumber: 1`). -/
def rootInit : MoveNode :=
  { id := "root", moveNumber := some 1, san := none, move := none, fen := none,
    children := [], isMainline := true }

/-- The `MoveTree` constructor. -/
def MoveTree.new : MoveTree :=
  { mainline := [rootInit], nodeMap := [("root", rootInit)], currentNode := some "root",
    final := none, idCounter := 0, currentIndex := 0, clockData := [] }

/-- `getNodeIndex(node)`: `this.mainline.findIndex(n => n.id === node.id)`,
`-1` when absent. -/
def findIdxFrom (p : MoveNode → Bool) : List MoveNode → Nat → Option Nat
  | [], _ => none
  | x :: xs, i => if p x then some i else findIdxFrom p xs (i + 1)

/-- `getNodeIndex` of the source. -/
def MoveTree.getNodeIndex (t : MoveTree) (node : MoveNode) : Int :=
  match findIdxFrom (fun nd => nd.id == node.id) t.mainline 0 with
  | some i => (i : Int)
  | none => -1

/-- The `for` loop body of `buildFromPGN`: append one mainline node per
history entry, threading the engine position, the move number and the
side to move. -/
def buildLoop (eng : RulesEngine) (clocks : List ClockEntry) :
    List MoveDetail → MoveTree → String → Nat → Bool → Nat → MoveTree
  | [], t, _, _, _, _ => t
  | move :: rest, t, fen, mn, isWhite, idx =>
      let nodeId := mainlineNodeId mn isWhite move.san
      let newFen := eng.applyMove (some fen) move
      let node : MoveNode :=
        { id := nodeId,
          moveNumber := some (if isWhite then (mn : ℚ) else (mn : ℚ) + 1/2),
          san := some move.san, move := some move, fen := some newFen,
          children := [], isMainline := true,
          parentIndex := some ((t.mainline.length : Int) - 1),
          clock := (clocks.find? (fun c => c.moveIndex == idx)).map (fun c => c.clock) }
      let t1 := { t with mainline := t.mainline ++ [node],
                         nodeMap := mapSet t.nodeMap nodeId node,
                         final := some nodeId }
      buildLoop eng clocks rest t1 newFen (if isWhite then mn else mn + 1) (!isWhite) (idx + 1)

/-- `buildFromPGN(pgn, chess)`: extract the clock records, obtain the
verbose history from the engine, reset the tree to a fresh root at the
engine's starting position, replay the history, and park the cursor on
the root.  Returns the new tree together with the history (the source
returns the history). -/
def MoveTree.buildFromPGN (t : MoveTree) (eng : RulesEngine) (pgn : String) :
    MoveTree × List MoveDetail :=
  let clocks := extractClockAnnotationList pgn
  let history := eng.parsePgn pgn
  let rootFen := eng.initialFen
  let rootNode : MoveNode :=
    { id := "root", moveNumber := none, san := none, move := none, fen := some rootFen,
      children := [], isMainline := true }
  let t0 : MoveTree :=
    { t with mainline := [rootNode], nodeMap := mapSet [] "root" rootNode,
             currentNode := some "root", currentIndex := 0 }
  let t1 := buildLoop eng clocks history t0 rootFen 1 true 0
  ({ t1 with currentNode := some "root" }, history)

/-- `updateClassification(nodeId, move)`: soft-miss on an unknown id;
otherwise record the classification label, the analysis result, and the
top-ranked line's score/kind (`topLine.type || 'cp'`). -/
def MoveTree.updateClassification (t : MoveTree) (nodeId : String) (res : AnalysisMove) :
    MoveTree :=
  match mapGet t.nodeMap nodeId with
  | none => t
  | some node =>
    let node1 := { node with classification := some res.classification.type,
                             evaluatedMove := some res }
    let node2 :=
      match res.lines with
      | some lines =>
        if 0 < lines.length then
          match lines.find? (fun l => l.id == 1) with
          | some topLine =>
            { node1 with evalScore := some topLine.score,
                         evalType := some (match topLine.type with
                           | some ty => if ty == "" then "cp" else ty
                           | none => "cp") }
          | none => node1
        else node1
      | none => node1
    { t with nodeMap := mapSet t.nodeMap nodeId node2,
             mainline := t.mainline.map (fun nd => if nd.id == node.id then node2 else nd) }

/-- `from/to/promotion` identity used by `findExistingMove`
(`child.move?.from === move.from && ...`). -/
def movesMatch (a : Option MoveDetail) (m : MoveDetail) : Bool :=
  match a with
  | some mv => mv.fromSq == m.fromSq && mv.toSq == m.toSq && mv.promotion == m.promotion
  | none => false

/-- The `parentNode.children.find(...)` part of `findExistingMove`
(children are ids resolved through the arena). -/
def MoveTree.childLookup (t : MoveTree) (children : List String) (move : MoveDetail) :
    Option MoveNode :=
  children.findSome? (fun cid =>
    match mapGet t.nodeMap cid with
    | some child => if movesMatch child.move move then some child else none
    | none => none)

/-- `findExistingMove(parentNode, move)`: for a mainline parent, first
probe the mainline successor; then fall back to the parent's recorded
children. -/
def MoveTree.findExistingMove (t : MoveTree) (parentNode : MoveNode) (move : MoveDetail) :
    Option MoveNode :=
  let fromMainline : Option MoveNode :=
    if parentNode.isMainline then
      let pIdx := t.getNodeIndex parentNode
      if pIdx != -1 && pIdx + 1 < (t.mainline.length : Int) then
        match t.mainline.get? (pIdx + 1).toNat with
        | some nextMove => if movesMatch nextMove.move move then some nextMove else none
        | none => none
      else none
    else none
  match fromMainline with
  | some n => some n
  | none => t.childLookup parentNode.children move

/-- `addMove(move, parentId)`.  The transient `new Chess()` probing of
side / move number / resulting position is the abstract engine; the
original position restore has no tree effect.  Returns the (possibly
pre-existing) node and the updated tree. -/
def MoveTree.addMove (t : MoveTree) (eng : RulesEngine) (move : MoveDetail)
    (parentId : String) : Option MoveNode × MoveTree :=
  match mapGet t.nodeMap parentId with
  | none => (none, t)
  | some parent =>
    match t.findExistingMove parent move with
    | some existingNode => (some existingNode, t)
    | none =>
      let isWhiteTurn := eng.turn parent.fen == "w"
      let moveNumber := eng.moveNumberOf parent.fen
      let parentIndex := t.getNodeIndex parent
      let isMain := parent.isMainline && parentIndex == (t.mainline.length : Int) - 1
      let ctr := t.idCounter + 1
      let baseId := (if isMain then "move" else "var") ++ "_" ++ toString moveNumber ++ "_"
          ++ (if isWhiteTurn then "w" else "b") ++ "_" ++ sanitizeSan move.san
          ++ (if isMain then "" else "_" ++ toString ctr)
      let nodeId := if isMain && (mapGet t.nodeMap baseId).isSome
          then baseId ++ "_" ++ toString ctr else baseId
      let newFen := eng.applyMove parent.fen move
      let baseNode : MoveNode :=
        { id := nodeId,
          moveNumber := some (if isWhiteTurn then (moveNumber : ℚ) else (moveNumber : ℚ) + 1/2),
          san := some move.san, move := some move, fen := some newFen,
          children := [], isMainline := isMain, parentId := some parentId }
      if isMain then
        let node := { baseNode with parentIndex := some parentIndex }
        (some node, { t with idCounter := ctr,
                             mainline := t.mainline ++ [node],
                             final := some nodeId,
                             nodeMap := mapSet t.nodeMap nodeId node })
      else
        let parentUpd := { parent with children := parent.children ++ [nodeId] }
        (some baseNode,
          { t with idCounter := ctr,
                   mainline := t.mainline.map (fun nd => if nd.id == parent.id then parentUpd else nd),
                   nodeMap := mapSet (mapSet t.nodeMap parentId parentUpd) nodeId baseNode })

/-- `navigateTo(nodeId)`. -/
def MoveTree.navigateTo (t : MoveTree) (nodeId : String) : Option MoveNode × MoveTree :=
  match mapGet t.nodeMap nodeId with
  | some node =>
      let ni := t.getNodeIndex node
      (some node,
        { t with currentNode := some nodeId,
                 currentIndex := if ni != -1 then ni else t.currentIndex })
  | none => (none, t)

/-- `getNextMove()`: the mainline successor when the current node sits on
the mainline and is not its last node, otherwise the first recorded
child. -/
def MoveTree.getNextMove (t : MoveTree) : Option MoveNode :=
  match t.currentNode with
  | none => none
  | some cid =>
    match mapGet t.nodeMap cid with
    | none => none
    | some cur =>
      let ci := t.getNodeIndex cur
      if ci != -1 && ci < (t.mainline.length : Int) - 1 then
        t.mainline.get? (ci + 1).toNat
      else
        cur.children.head?.bind (fun cid2 => mapGet t.nodeMap cid2)

/-- `getPreviousMove()`: `null` on the root, the mainline predecessor on
the mainline, otherwise the node named by `parentId`. -/
def MoveTree.getPreviousMove (t : MoveTree) : Option MoveNode :=
  match t.currentNode with
  | none => none
  | some cid =>
    if (t.mainline.head?.map (fun nd => nd.id)) == some cid then none
    else
      match mapGet t.nodeMap cid with
      | none => none
      | some cur =>
        let ci := t.getNodeIndex cur
        if 0 < ci then t.mainline.get? (ci - 1).toNat
        else
          match cur.parentId with
          | some pid => mapGet t.nodeMap pid
          | none => none

/-- The `while (current && current !== this.mainline[0])` walk of
`getPathToNode`, prepending each visited node.  The source loop is
unbounded; any acyclic parent chain visits fewer nodes than the arena
holds, so the fuel `t.nodeMap.length + 1` never runs out on the trees the
source builds. -/
def MoveTree.pathWalk (t : MoveTree) : Nat → Option MoveNode → List MoveNode → List MoveNode
  | _, none, path => path
  | 0, some _, path => path
  | fuel + 1, some cur, path =>
      if (t.mainline.head?.map (fun nd => nd.id)) == some cur.id then path
      else t.pathWalk fuel (cur.parentId.bind (fun pid => mapGet t.nodeMap pid)) (cur :: path)

/-- `getPathToNode(nodeId)`: `[]` on an unknown id; the mainline slice
`mainline.slice(1, nodeIndex + 1)` for a mainline node; the reversed
parent walk for a variation node. -/
def MoveTree.getPathToNode (t : MoveTree) (nodeId : String) : List MoveNode :=
  match mapGet t.nodeMap nodeId with
  | none => []
  | some node =>
    let ni := t.getNodeIndex node
    if ni != -1 then
      (t.mainline.drop 1).take ni.toNat
    else
      t.pathWalk (t.nodeMap.length + 1) (some node) []

/-- `getMovesToNode(nodeId)`: the path filtered to nodes carrying a move
and a (truthy) move text, projected to `(san, move)` pairs. -/
def MoveTree.getMovesToNode (t : MoveTree) (nodeId : String) : List (String × MoveDetail) :=
  (t.getPathToNode nodeId).filterMap (fun nd =>
    match nd.move, nd.san with
    | some mv, some s => if s == "" then none else some (s, mv)
    | _, _ => none)

/-- `getFinalMove()`. -/
def MoveTree.getFinalMove (t : MoveTree) : Option MoveNode :=
  t.final.bind (fun fid => mapGet t.nodeMap fid)



/- ### Association-list and index lemmas -/
theorem mapGet_replaceAll (m : List (String × MoveNode)) (k : String) (v : MoveNode) :
    mapGet (m.map (fun e => if e.1 == k then (k, v) else e)) k
      = (mapGet m k).map (fun _ => v) := by
  induction m with
  | nil => rfl
  | cons e rest ih =>
      simp only [List.map_cons, mapGet]
      by_cases he : e.1 = k
      · simp [he]
      · simp only [beq_iff_eq] at ih ⊢
        simp [he, ih]

theorem mapGet_replaceAll_ne (m : List (String × MoveNode)) (k k' : String) (v : MoveNode)
    (h : k' ≠ k) :
    mapGet (m.map (fun e => if e.1 == k then (k, v) else e)) k' = mapGet m k' := by
  induction m with
  | nil => rfl
  | cons e rest ih =>
      simp only [List.map_cons, mapGet]
      by_cases he : e.1 = k
      · have hkk : ¬ (k = k') := fun hh => h hh.symm
        simp only [beq_iff_eq] at ih ⊢
        simp [he, ih, hkk]
      · simp only [beq_iff_eq] at ih ⊢
        simp [he, ih]

theorem any_key_iff (m : List (String × MoveNode)) (k : String) :
    (m.any (fun e => e.1 == k)) = true ↔ (mapGet m k).isSome := by
  induction m with
  | nil => simp [mapGet]
  | cons e rest ih =>
      simp only [List.any_cons, Bool.or_eq_true, mapGet]
      by_cases he : e.1 = k
      · simp [he]
      · simp only [beq_iff_eq] at ih ⊢
        simp [he, ih]

theorem mapGet_append (m l : List (String × MoveNode)) (k : String) :
    mapGet (m ++ l) k = match mapGet m k with | some v => some v | none => mapGet l k := by
  induction m with
  | nil => simp [mapGet]
  | cons e rest ih =>
      simp only [List.cons_append, mapGet]
      by_cases he : e.1 = k
      · simp [he]
      · simp only [beq_iff_eq] at ih ⊢
        simp [he, ih]

theorem mapGet_mapSet_self (m : List (String × MoveNode)) (k : String) (v : MoveNode) :
    mapGet (mapSet m k v) k = some v := by
  unfold mapSet
  by_cases h : (m.any (fun e => e.1 == k)) = true
  · rw [if_pos h, mapGet_replaceAll]
    rcases Option.isSome_iff_exists.mp ((any_key_iff m k).mp h) with ⟨w, hw⟩
    rw [hw]
    rfl
  · rw [if_neg h, mapGet_append]
    have hnone : mapGet m k = none := by
      cases hmk : mapGet m k with
      | none => rfl
      | some w => exact absurd ((any_key_iff m k).mpr (by rw [hmk]; rfl)) h
    rw [hnone]
    simp [mapGet]

theorem mapGet_mapSet_ne (m : List (String × MoveNode)) (k k' : String) (v : MoveNode)
    (h : k' ≠ k) :
    mapGet (mapSet m k v) k' = mapGet m k' := by
  unfold mapSet
  by_cases hany : (m.any (fun e => e.1 == k)) = true
  · rw [if_pos hany, mapGet_replaceAll_ne m k k' v h]
  · rw [if_neg hany, mapGet_append]
    cases hmk : mapGet m k' with
    | some w => rfl
    | none =>
        have hkk : ¬ (k = k') := fun hh => h hh.symm
        simp [mapGet, hkk]


theorem findIdxFrom_append_some (p : MoveNode → Bool) (l l' : List MoveNode) (i j : Nat)
    (h : findIdxFrom p l i = some j) :
    findIdxFrom p (l ++ l') i = some j := by
  induction l generalizing i with
  | nil => simp [findIdxFrom] at h
  | cons x xs ih =>
      simp only [List.cons_append, findIdxFrom] at h ⊢
      by_cases hp : p x = true
      · simpa [hp] using h
      · rw [if_neg hp] at h ⊢
        exact ih (i + 1) h

theorem findIdxFrom_map_preserve (f : MoveNode → MoveNode) (p : MoveNode → Bool)
    (hf : ∀ x, p (f x) = p x) (l : List MoveNode) (i : Nat) :
    findIdxFrom p (l.map f) i = findIdxFrom p l i := by
  induction l generalizing i with
  | nil => rfl
  | cons x xs ih =>
      simp only [List.map_cons, findIdxFrom, hf]
      by_cases hp : p x = true
      · simp [hp]
      · simp [hp, ih]

theorem findIdxFrom_nodup (l : List MoveNode) (n : Nat) (x : MoveNode) (i : Nat)
    (hget : l.get? n = some x) (hnodup : (l.map (fun nd => nd.id)).Nodup) :
    findIdxFrom (fun nd => nd.id == x.id) l i = some (i + n) := by
  induction l generalizing i n with
  | nil => simp [List.get?] at hget
  | cons y ys ih =>
      cases n with
      | zero =>
          simp only [List.get?] at hget
          cases hget
          simp [findIdxFrom]
      | succ n =>
          simp only [List.get?] at hget
          simp only [List.map_cons, List.nodup_cons] at hnodup
          have hxmem : x ∈ ys := List.get?_mem hget
          have hxid : x.id ∈ ys.map (fun nd => nd.id) := List.mem_map_of_mem _ hxmem
          have hyx : ¬ ((fun nd => nd.id == x.id) y) = true := by
            simp only [beq_iff_eq]
            intro heq
            exact hnodup.1 (heq ▸ hxid)
          simp only [findIdxFrom, if_neg hyx]
          rw [ih n (i + 1) hget hnodup.2]
          congr 1
          omega


/- ### buildFromPGN structure lemmas -/

theorem buildLoop_currentIndex (eng : RulesEngine) (clocks : List ClockEntry) :
    ∀ (hist : List MoveDetail) (t : MoveTree) (fen : String) (mn : Nat) (w : Bool) (idx : Nat),
      (buildLoop eng clocks hist t fen mn w idx).currentIndex = t.currentIndex := by
  intro hist
  induction hist with
  | nil => intro t fen mn w idx; rfl
  | cons mv rest ih =>
      intro t fen mn w idx
      simp only [buildLoop]
      rw [ih]

theorem buildLoop_mainline_app (eng : RulesEngine) (clocks : List ClockEntry) :
    ∀ (hist : List MoveDetail) (t : MoveTree) (fen : String) (mn : Nat) (w : Bool) (idx : Nat),
      ∃ s, (buildLoop eng clocks hist t fen mn w idx).mainline = t.mainline ++ s := by
  intro hist
  induction hist with
  | nil => intro t fen mn w idx; exact ⟨[], by simp [buildLoop]⟩
  | cons mv rest ih =>
      intro t fen mn w idx
      simp only [buildLoop]
      rcases ih _ _ _ _ _ with ⟨s, hs⟩
      rw [hs]
      exact ⟨_, by rw [List.append_assoc]⟩

theorem buildLoop_length (eng : RulesEngine) (clocks : List ClockEntry) :
    ∀ (hist : List MoveDetail) (t : MoveTree) (fen : String) (mn : Nat) (w : Bool) (idx : Nat),
      (buildLoop eng clocks hist t fen mn w idx).mainline.length
        = t.mainline.length + hist.length := by
  intro hist
  induction hist with
  | nil => intro t fen mn w idx; rfl
  | cons mv rest ih =>
      intro t fen mn w idx
      simp only [buildLoop]
      rw [ih]
      simp only [List.length_append, List.length_cons, List.length_nil]
      omega

theorem buildLoop_get_low (eng : RulesEngine) (clocks : List ClockEntry)
    (hist : List MoveDetail) (t : MoveTree) (fen : String) (mn : Nat) (w : Bool) (idx : Nat)
    (k : Nat) (hk : k < t.mainline.length) :
    (buildLoop eng clocks hist t fen mn w idx).mainline.get? k = t.mainline.get? k := by
  rcases buildLoop_mainline_app eng clocks hist t fen mn w idx with ⟨s, hs⟩
  rw [hs, List.get?_append hk]

/-- The move-number sequence the build loop writes, starting from state
`(mn, w)`. -/
def mnSeq : Nat → Bool → Nat → ℚ
  | mn, w, 0 => if w then (mn : ℚ) else (mn : ℚ) + 1/2
  | mn, w, k + 1 => mnSeq (if w then mn else mn + 1) (!w) k

theorem mnSeq_closed :
    ∀ (k : Nat) (mn : Nat) (w : Bool),
      mnSeq mn w k = (if w then (mn : ℚ) else (mn : ℚ) + 1/2) + k / 2 := by
  intro k
  induction k with
  | zero => intro mn w; simp [mnSeq]
  | succ k ih =>
      intro mn w
      rw [show mnSeq mn w (k + 1) = mnSeq (if w then mn else mn + 1) (!w) k from rfl, ih]
      cases w with
      | false => simp only [Bool.not_false, if_true, if_false]; push_cast; ring
      | true => simp only [Bool.not_true, if_true, if_false]; push_cast; ring

/-- Proof-side view of the node records the build loop appends (proved
to coincide with `buildLoop` in `buildLoop_mainline_eq`). -/
def buildNodes (eng : RulesEngine) (clocks : List ClockEntry) :
    List MoveDetail → Nat → String → Nat → Bool → Nat → List MoveNode
  | [], _, _, _, _, _ => []
  | move :: rest, base, fen, mn, isWhite, idx =>
      let nodeId := mainlineNodeId mn isWhite move.san
      let newFen := eng.applyMove (some fen) move
      let node : MoveNode :=
        { id := nodeId,
          moveNumber := some (if isWhite then (mn : ℚ) else (mn : ℚ) + 1/2),
          san := some move.san, move := some move, fen := some newFen,
          children := [], isMainline := true,
          parentIndex := some ((base : Int) - 1),
          clock := (clocks.find? (fun c => c.moveIndex == idx)).map (fun c => c.clock) }
      node :: buildNodes eng clocks rest (base + 1) newFen
        (if isWhite then mn else mn + 1) (!isWhite) (idx + 1)

theorem buildLoop_mainline_eq (eng : RulesEngine) (clocks : List ClockEntry) :
    ∀ (hist : List MoveDetail) (t : MoveTree) (fen : String) (mn : Nat) (w : Bool) (idx : Nat),
      (buildLoop eng clocks hist t fen mn w idx).mainline
        = t.mainline ++ buildNodes eng clocks hist t.mainline.length fen mn w idx := by
  intro hist
  induction hist with
  | nil => intro t fen mn w idx; simp [buildLoop, buildNodes]
  | cons mv rest ih =>
      intro t fen mn w idx
      simp only [buildLoop, buildNodes]
      rw [ih]
      simp only [List.length_append, List.length_cons, List.length_nil, List.append_assoc,
        List.cons_append, List.nil_append]

theorem buildNodes_length (eng : RulesEngine) (clocks : List ClockEntry) :
    ∀ (hist : List MoveDetail) (base : Nat) (fen : String) (mn : Nat) (w : Bool) (idx : Nat),
      (buildNodes eng clocks hist base fen mn w idx).length = hist.length := by
  intro hist
  induction hist with
  | nil => intro base fen mn w idx; rfl
  | cons mv rest ih =>
      intro base fen mn w idx
      simp only [buildNodes, List.length_cons]
      rw [ih]

theorem buildNodes_moveNumber (eng : RulesEngine) (clocks : List ClockEntry) :
    ∀ (hist : List MoveDetail) (base : Nat) (fen : String) (mn : Nat) (w : Bool) (idx : Nat)
      (k : Nat), k < hist.length →
      ((buildNodes eng clocks hist base fen mn w idx).get? k).map (fun nd => nd.moveNumber)
        = some (some (mnSeq mn w k)) := by
  intro hist
  induction hist with
  | nil => intro base fen mn w idx k hk; simp at hk
  | cons mv rest ih =>
      intro base fen mn w idx k hk
      cases k with
      | zero => simp [buildNodes, mnSeq]
      | succ k =>
          simp only [buildNodes, List.get?]
          rw [show mnSeq mn w (k + 1) = mnSeq (if w then mn else mn + 1) (!w) k from rfl]
          exact ih _ _ _ _ _ k (by simpa using hk)

theorem mainlineNodeId_ne_root (mn : Nat) (w : Bool) (san : String) :
    mainlineNodeId mn w san ≠ "root" := by
  intro h
  have hlen := congrArg String.length h
  simp only [mainlineNodeId, String.length_append] at hlen
  have h5 : ("move_" : String).length = 5 := rfl
  have h1 : ("_" : String).length = 1 := rfl
  have h4 : ("root" : String).length = 4 := rfl
  rw [h5, h1, h4] at hlen
  omega

theorem buildLoop_mapGet_root (eng : RulesEngine) (clocks : List ClockEntry) :
    ∀ (hist : List MoveDetail) (t : MoveTree) (fen : String) (mn : Nat) (w : Bool) (idx : Nat),
      mapGet (buildLoop eng clocks hist t fen mn w idx).nodeMap "root"
        = mapGet t.nodeMap "root" := by
  intro hist
  induction hist with
  | nil => intro t fen mn w idx; rfl
  | cons mv rest ih =>
      intro t fen mn w idx
      simp only [buildLoop]
      rw [ih]
      exact mapGet_mapSet_ne _ _ _ _ (Ne.symm (mainlineNodeId_ne_root mn w mv.san))

/-- Claim C10: after every `buildFromPGN` the cursor is reset to the root:
`currentNode` is the root node (the head of the mainline, id `root`) and
`currentIndex` is `0`, regardless of the prior tree state. -/
theorem c10_cursor_reset_after_build (t : MoveTree) (eng : RulesEngine) (pgn : String) :
    (t.buildFromPGN eng pgn).1.currentNode = some "root"
    ∧ (t.buildFromPGN eng pgn).1.currentIndex = 0
    ∧ ((t.buildFromPGN eng pgn).1.mainline.head?.map (fun nd => nd.id)) = some "root" := by
  refine ⟨rfl, ?_, ?_⟩
  · simp only [MoveTree.buildFromPGN]
    rw [buildLoop_currentIndex]
  · simp only [MoveTree.buildFromPGN]
    rw [buildLoop_mainline_eq]
    rfl

/-- Claim C3: for every notation string, `buildFromPGN` produces a
mainline of length `N + 1` where `N` is the number of plies of the
engine history, and the `moveNumber` values along the mainline after the
root are exactly `1, 1.5, 2, 2.5, ...`: the node at mainline position
`k + 1` carries move number `(k + 2) / 2`. -/
theorem c3_build_mainline_pattern (t : MoveTree) (eng : RulesEngine) (pgn : String) :
    (t.buildFromPGN eng pgn).1.mainline.length = (eng.parsePgn pgn).length + 1
    ∧ ∀ k : Nat, k < (eng.parsePgn pgn).length →
        (((t.buildFromPGN eng pgn).1.mainline.get? (k + 1)).map (fun nd => nd.moveNumber))
          = some (some (((k : ℚ) + 2) / 2)) := by
  constructor
  · simp only [MoveTree.buildFromPGN]
    rw [buildLoop_length]
    simp only [List.length_cons, List.length_nil]
    omega
  · intro k hk
    simp only [MoveTree.buildFromPGN]
    rw [buildLoop_mainline_eq]
    simp only [List.cons_append, List.nil_append, List.get?_cons_succ]
    rw [buildNodes_moveNumber eng (extractClockAnnotationList pgn) (eng.parsePgn pgn)
          _ _ 1 true 0 k hk]
    have harith : mnSeq 1 true k = ((k : ℚ) + 2) / 2 := by
      rw [mnSeq_closed]
      simp only [if_true]
      ring
    rw [harith]

/-- Claim C9 (counterexample): in a freshly constructed tree the root
node does carry a move number, namely `1`, so the root is not
move-number-free in every tree state. -/
theorem c9_root_moveNumber_counterexample :
    (mapGet MoveTree.new.nodeMap "root").map (fun nd => nd.moveNumber) = some (some 1) := by
  rfl

/-- Claim C9 (amended): after every `buildFromPGN` the root node carries
no move number (the fresh constructor's root carries move number 1). -/
theorem c9_root_no_moveNumber_after_build (t : MoveTree) (eng : RulesEngine) (pgn : String) :
    (mapGet (t.buildFromPGN eng pgn).1.nodeMap "root").map (fun nd => nd.moveNumber)
      = some none := by
  simp only [MoveTree.buildFromPGN]
  rw [buildLoop_mapGet_root]
  rfl

/- ### Concrete fixtures for the executable claims -/

/-- A concrete structured move used by the fixtures. -/
def mdA : MoveDetail := { san := "a", lan := "a1a2", fromSq := "a1", toSq := "a2" }

/-- A concrete structured move used by the fixtures. -/
def mdB : MoveDetail := { san := "b", lan := "b1b2", fromSq := "b1", toSq := "b2" }

/-- A concrete structured move used by the fixtures. -/
def mdC : MoveDetail := { san := "c", lan := "c1c2", fromSq := "c1", toSq := "c2" }

/-- A concrete structured move used by the fixtures. -/
def mdD : MoveDetail := { san := "d", lan := "d1d2", fromSq := "d1", toSq := "d2" }

/-- A concrete deterministic rules engine: position encodings are the
slash-separated list of applied move texts, and every notation string
parses to the three-ply history `a b c`. -/
def testEngine : RulesEngine :=
  { initialFen := "start",
    parsePgn := fun _ => [mdA, mdB, mdC],
    applyMove := fun f m => f.getD "x" ++ "/" ++ m.san,
    turn := fun _ => "w",
    moveNumberOf := fun _ => 1 }

/-- The three-ply mainline built from the fixture engine. -/
def c12base : MoveTree := (MoveTree.new.buildFromPGN testEngine "pgn").1

/-- The fixture tree after attaching the variation `d` at the second
mainline node (which is not the mainline tip). -/
def c12tree : MoveTree := (c12base.addMove testEngine mdD "move_1_b_b").2

/-- Claim C1 (failing input): on the tree `a b c` with variation `d`
attached at the second mainline node, replaying `getMovesToNode` for the
variation node through the engine from the initial position yields
`start/b/d`, while the node stores position `start/a/b/d`: the first
mainline move is missing from the replayed path, so the round-trip
fails. -/
theorem c1_fen_replay_bug :
    ((c12tree.getMovesToNode "var_1_w_d_1").foldl
        (fun f sm => testEngine.applyMove (some f) sm.2) testEngine.initialFen) = "start/b/d"
    ∧ (mapGet c12tree.nodeMap "var_1_w_d_1").map (fun nd => nd.fen)
        = some (some "start/a/b/d")
    ∧ ("start/b/d" : String) ≠ "start/a/b/d" := by
  refine ⟨by rfl, by rfl, by decide⟩

/-- Claim C2 (failing input): on the same tree, `getPathToNode` for the
variation node returns only `[move_1_b_b, var_1_w_d_1]`, although the
variation hangs (via `parentId`) off the mainline node at index 2, whose
ancestor chain below the root also contains `move_1_w_a`: the walk stops
because `buildFromPGN` mainline nodes carry no `parentId`. -/
theorem c2_path_truncation_bug :
    (c12tree.getPathToNode "var_1_w_d_1").map (fun nd => nd.id)
        = ["move_1_b_b", "var_1_w_d_1"]
    ∧ (mapGet c12tree.nodeMap "var_1_w_d_1").map (fun nd => nd.parentId)
        = some (some "move_1_b_b")
    ∧ c12tree.mainline.map (fun nd => nd.id)
        = ["root", "move_1_w_a", "move_1_b_b", "move_2_w_c"] := by
  refine ⟨by rfl, by rfl, by rfl⟩

/-- The move text of the annotation-alignment example of the spec. -/
def c7pgn : String := "1. e4 \x7b[%clk 0:05:00]\x7d e5 \x7b[%clk 0:04:58]\x7d 2. Nf3"

/-- Claim C7: on `1. e4 {[%clk 0:05:00]} e5 {[%clk 0:04:58]} 2. Nf3` the
extractor yields exactly two records: ply 0 / white / `0:05:00` and
ply 1 / black / `0:04:58` (in particular no record for ply 2). -/
theorem c7_clock_alignment_example :
    extractClockAnnotationList c7pgn
      = [⟨0, "white", "0:05:00"⟩, ⟨1, "black", "0:04:58"⟩] := by
  rfl

/-- Claim C8: an id absent from the node index is a soft miss for every
entry point: `addMove` returns no node and leaves the tree unchanged,
`updateClassification` is the identity, and `getPathToNode` returns the
empty path. -/
theorem c8_unknown_id_soft_miss (t : MoveTree) (eng : RulesEngine) (move : MoveDetail)
    (res : AnalysisMove) (nodeId : String) (h : mapGet t.nodeMap nodeId = none) :
    t.addMove eng move nodeId = (none, t)
    ∧ t.updateClassification nodeId res = t
    ∧ t.getPathToNode nodeId = [] := by
  refine ⟨?_, ?_, ?_⟩
  · simp only [MoveTree.addMove, h]
  · simp only [MoveTree.updateClassification, h]
  · simp only [MoveTree.getPathToNode, h]

/-- Witness for C8 at a concrete unknown id on a concrete tree. -/
theorem c8_unknown_id_soft_miss_witness :
    c12tree.addMove testEngine mdD "missing" = (none, c12tree)
    ∧ c12tree.updateClassification "missing" { classification := ⟨"best"⟩ } = c12tree
    ∧ c12tree.getPathToNode "missing" = [] :=
  c8_unknown_id_soft_miss c12tree testEngine mdD { classification := ⟨"best"⟩ } "missing" (by rfl)

theorem map_id_replace (l : List MoveNode) (q : String) (u : MoveNode) (hu : u.id = q) :
    (l.map (fun nd => if nd.id == q then u else nd)).map (fun nd => nd.id)
      = l.map (fun nd => nd.id) := by
  induction l with
  | nil => rfl
  | cons x xs ih =>
      simp only [List.map_cons]
      by_cases hx : x.id = q
      · simp only [hx, beq_self_eq_true, if_true, hu]
        rw [ih]
      · have : ¬ (x.id == q) = true := by simp [hx]
        simp only [if_neg this]
        rw [ih]

/-- Claim C5: when the parent of an `addMove` call is not the last node
of the mainline sequence, the mainline is untouched: its id sequence and
its length are unchanged (any new node becomes a variation in the
parent's children list). -/
theorem c5_branch_isolation (t : MoveTree) (eng : RulesEngine) (move : MoveDetail)
    (parentId : String)
    (h : (mapGet t.nodeMap parentId).map (fun pn => t.getNodeIndex pn)
          ≠ some ((t.mainline.length : Int) - 1)) :
    (t.addMove eng move parentId).2.mainline.map (fun nd => nd.id)
        = t.mainline.map (fun nd => nd.id)
    ∧ (t.addMove eng move parentId).2.mainline.length = t.mainline.length := by
  cases hp : mapGet t.nodeMap parentId with
  | none =>
      simp [MoveTree.addMove, hp]
  | some parent =>
      cases hf : t.findExistingMove parent move with
      | some ex =>
          simp [MoveTree.addMove, hp, hf]
      | none =>
          rw [hp] at h
          have hne : t.getNodeIndex parent ≠ (t.mainline.length : Int) - 1 := by
            intro hc
            exact h (by simp [hc])
          have hbeq : (t.getNodeIndex parent == (t.mainline.length : Int) - 1) = false := by
            simp [hne]
          simp only [MoveTree.addMove, hp, hf, hbeq, Bool.and_false, Bool.false_eq_true,
            if_false]
          constructor
          · exact map_id_replace t.mainline parent.id _ rfl
          · simp only [List.length_map]

theorem getNodeIndex_eq (t : MoveTree) (nd : MoveNode) (j : Nat)
    (h : findIdxFrom (fun x => x.id == nd.id) t.mainline 0 = some j) :
    t.getNodeIndex nd = (j : Int) := by
  unfold MoveTree.getNodeIndex
  rw [h]

/-- Claim C6: for a non-root mainline node `n` (mainline position
`i > 0`), putting the cursor on `n`, `getPreviousMove` returns a node
`p`, and with the cursor on `p`, `getNextMove` returns `n` again. -/
theorem c6_nav_symmetry (t : MoveTree) (i : Nat) (n : MoveNode)
    (h0 : 0 < i) (hget : t.mainline.get? i = some n)
    (hnodup : (t.mainline.map (fun nd => nd.id)).Nodup)
    (hsync : ∀ nd ∈ t.mainline, mapGet t.nodeMap nd.id = some nd) :
    ∃ p, ({ t with currentNode := some n.id } : MoveTree).getPreviousMove = some p
      ∧ ({ t with currentNode := some p.id } : MoveTree).getNextMove = some n := by
  have hlen : i < t.mainline.length := by
    by_contra hc
    rw [List.get?_eq_none.mpr (by omega)] at hget
    exact absurd hget (by simp)
  have hplen : i - 1 < t.mainline.length := by omega
  obtain ⟨p, hpget⟩ : ∃ p, t.mainline.get? (i - 1) = some p :=
    ⟨t.mainline.get ⟨i - 1, hplen⟩, List.get?_eq_get hplen⟩
  have hnmem : n ∈ t.mainline := List.get?_mem hget
  have hpmem : p ∈ t.mainline := List.get?_mem hpget
  have hidx_n : findIdxFrom (fun nd => nd.id == n.id) t.mainline 0 = some i := by
    have := findIdxFrom_nodup t.mainline i n 0 hget hnodup
    simpa using this
  have hidx_p : findIdxFrom (fun nd => nd.id == p.id) t.mainline 0 = some (i - 1) := by
    have := findIdxFrom_nodup t.mainline (i - 1) p 0 hpget hnodup
    simpa using this
  have hni : ({ t with currentNode := some n.id } : MoveTree).getNodeIndex n = (i : Int) :=
    getNodeIndex_eq _ n i hidx_n
  have hpi : ({ t with currentNode := some p.id } : MoveTree).getNodeIndex p
      = ((i - 1 : Nat) : Int) :=
    getNodeIndex_eq _ p (i - 1) hidx_p
  obtain ⟨r, rest, hml⟩ : ∃ r rest, t.mainline = r :: rest := by
    cases hm : t.mainline with
    | nil => rw [hm] at hlen; simp at hlen
    | cons r rest => exact ⟨r, rest, rfl⟩
  have hrn : r.id ≠ n.id := by
    intro hc
    rw [hml] at hidx_n
    rw [show findIdxFrom (fun nd => nd.id == n.id) (r :: rest) 0
          = if r.id == n.id then some 0 else findIdxFrom (fun nd => nd.id == n.id) rest 1
        from rfl] at hidx_n
    rw [if_pos (by simp [hc])] at hidx_n
    have : (0 : Nat) = i := by simpa using hidx_n
    omega
  refine ⟨p, ?_, ?_⟩
  · -- getPreviousMove from n
    simp only [MoveTree.getPreviousMove]
    rw [show t.mainline.head?.map (fun nd => nd.id) = some r.id by rw [hml]; rfl]
    rw [show ((some r.id == some n.id)) = false by
      simp only [beq_eq_false_iff_ne, ne_eq, Option.some.injEq]; exact hrn]
    simp only [Bool.false_eq_true, if_false]
    rw [hsync n hnmem]
    try dsimp only
    rw [hni]
    rw [if_pos (show (0 : Int) < (i : Int) by exact_mod_cast h0)]
    rw [show (((i : Int) - 1)).toNat = i - 1 by omega]
    exact hpget
  · -- getNextMove from p
    simp only [MoveTree.getNextMove]
    try dsimp only
    rw [hsync p hpmem]
    try dsimp only
    rw [hpi]
    have hcond : ((((i - 1 : Nat) : Int) != -1)
        && (decide (((i - 1 : Nat) : Int) < (t.mainline.length : Int) - 1))) = true := by
      have h1 : (((i - 1 : Nat) : Int) != -1) = true := by
        simp only [bne_iff_ne, ne_eq]
        omega
      have h2 : decide (((i - 1 : Nat) : Int) < (t.mainline.length : Int) - 1) = true := by
        simp only [decide_eq_true_eq]
        omega
      rw [h1, h2]
      rfl
    rw [if_pos hcond]
    rw [show (((i - 1 : Nat) : Int) + 1).toNat = i by omega]
    exact hget

theorem findIdxFrom_found (p : MoveNode → Bool) (l : List MoveNode) (i j : Nat)
    (h : findIdxFrom p l i = some j) :
    i ≤ j ∧ ∃ x, l.get? (j - i) = some x ∧ p x = true := by
  induction l generalizing i with
  | nil => simp [findIdxFrom] at h
  | cons x xs ih =>
      rw [show findIdxFrom p (x :: xs) i = if p x then some i else findIdxFrom p xs (i + 1)
          from rfl] at h
      by_cases hp : p x = true
      · rw [if_pos hp] at h
        have hij : i = j := by simpa using h
        subst hij
        exact ⟨le_refl i, x, by simp, hp⟩
      · rw [if_neg hp] at h
        obtain ⟨hle, y, hy, hpy⟩ := ih (i + 1) h
        refine ⟨by omega, y, ?_, hpy⟩
        rw [show j - i = (j - (i + 1)) + 1 by omega]
        simpa using hy

theorem nodup_map_get_ne (l : List MoveNode) (j k : Nat) (a b : MoveNode)
    (hnodup : (l.map (fun nd => nd.id)).Nodup)
    (ha : l.get? j = some a) (hb : l.get? k = some b) (hjk : j ≠ k) : a.id ≠ b.id := by
  intro h
  have hja : (l.map (fun nd => nd.id)).get? j = some a.id := by
    rw [List.get?_map, ha]; rfl
  have hkb : (l.map (fun nd => nd.id)).get? k = some b.id := by
    rw [List.get?_map, hb]; rfl
  have hjlen : j < l.length := by
    by_contra hc
    rw [List.get?_eq_none.mpr (by omega)] at ha
    exact absurd ha (by simp)
  have hjlen2 : j < (l.map (fun nd => nd.id)).length := by
    rw [List.length_map]; exact hjlen
  exact hjk (List.get?_inj hjlen2 hnodup (by rw [hja, hkb, h]))

theorem findSomeChild_upd (m : List (String × MoveNode)) (move : MoveDetail)
    (parentId : String) (parent parentUpd n : MoveNode)
    (hp : mapGet m parentId = some parent)
    (hfr : mapGet m n.id = none)
    (hpm : parentUpd.move = parent.move)
    (hmove : n.move = some move) :
    ∀ cids : List String,
      List.findSome? (fun cid => match mapGet m cid with
        | some child => if movesMatch child.move move then some child else none
        | none => none) cids = none →
      List.findSome? (fun cid =>
          match mapGet (mapSet (mapSet m parentId parentUpd) n.id n) cid with
        | some child => if movesMatch child.move move then some child else none
        | none => none) (cids ++ [n.id]) = some n := by
  have hneq : n.id ≠ parentId := by
    intro h
    rw [h, hp] at hfr
    exact Option.noConfusion hfr
  intro cids
  induction cids with
  | nil =>
      intro _
      simp only [List.nil_append, List.findSome?_cons, mapGet_mapSet_self, hmove]
      simp [movesMatch]
  | cons c cs ih =>
      intro hnone
      simp only [List.findSome?_cons] at hnone
      simp only [List.cons_append, List.findSome?_cons]
      by_cases hc1 : c = n.id
      · subst hc1
        simp only [mapGet_mapSet_self, hmove]
        simp [movesMatch]
      · by_cases hc2 : c = parentId
        · subst hc2
          rw [mapGet_mapSet_ne _ _ _ _ (Ne.symm (fun hh => hc1 hh.symm)),
            mapGet_mapSet_self]
          simp only [hp] at hnone
          cases hmm : movesMatch parent.move move with
          | true => rw [hmm] at hnone; simp at hnone
          | false =>
              try dsimp only
              rw [hpm, hmm]
              simp only [Bool.false_eq_true, if_false]
              rw [hmm] at hnone
              simp only [Bool.false_eq_true, if_false] at hnone
              try dsimp only at hnone
              exact ih hnone
        · rw [mapGet_mapSet_ne _ _ _ _ (Ne.symm (fun hh => hc1 hh.symm)),
            mapGet_mapSet_ne _ _ _ _ (fun hh => hc2 hh)]
          cases hg : mapGet m c with
          | none =>
              simp only [hg] at hnone ⊢
              exact ih hnone
          | some child =>
              simp only [hg] at hnone ⊢
              cases hmm : movesMatch child.move move with
              | true => rw [hmm] at hnone; simp at hnone
              | false =>
                  simp only [Bool.false_eq_true, if_false]
                  rw [hmm] at hnone
                  simp only [Bool.false_eq_true, if_false] at hnone
                  try dsimp only at hnone
                  exact ih hnone

theorem addMove_again_mainline (t : MoveTree) (eng : RulesEngine) (move : MoveDetail)
    (parentId : String) (parent n : MoveNode) (c : Nat)
    (hp : mapGet t.nodeMap parentId = some parent)
    (hfr : mapGet t.nodeMap n.id = none)
    (hmove : n.move = some move)
    (hpmain : parent.isMainline = true)
    (hidx : findIdxFrom (fun nd => nd.id == parent.id) t.mainline 0
        = some (t.mainline.length - 1))
    (hlen0 : 0 < t.mainline.length) :
    MoveTree.addMove
      { t with idCounter := c, mainline := t.mainline ++ [n], final := some n.id,
               nodeMap := mapSet t.nodeMap n.id n } eng move parentId
      = (some n,
        { t with idCounter := c, mainline := t.mainline ++ [n], final := some n.id,
                 nodeMap := mapSet t.nodeMap n.id n }) := by
  have hneq : n.id ≠ parentId := by
    intro h
    rw [h, hp] at hfr
    exact Option.noConfusion hfr
  have h1 : mapGet (mapSet t.nodeMap n.id n) parentId = some parent := by
    rw [mapGet_mapSet_ne _ _ _ _ (Ne.symm hneq)]
    exact hp
  have hidx2 : findIdxFrom (fun nd => nd.id == parent.id) (t.mainline ++ [n]) 0
      = some (t.mainline.length - 1) := findIdxFrom_append_some _ _ _ _ _ hidx
  have hgni : MoveTree.getNodeIndex
      { t with idCounter := c, mainline := t.mainline ++ [n], final := some n.id,
               nodeMap := mapSet t.nodeMap n.id n } parent
      = ((t.mainline.length - 1 : Nat) : Int) :=
    getNodeIndex_eq _ parent (t.mainline.length - 1) hidx2
  have hfe : MoveTree.findExistingMove
      { t with idCounter := c, mainline := t.mainline ++ [n], final := some n.id,
               nodeMap := mapSet t.nodeMap n.id n } parent move = some n := by
    simp only [MoveTree.findExistingMove, hpmain, if_true, hgni]
    have hcond : ((((t.mainline.length - 1 : Nat) : Int) != -1)
        && (decide (((t.mainline.length - 1 : Nat) : Int) + 1
              < ((t.mainline ++ [n]).length : Int)))) = true := by
      have hb1 : (((t.mainline.length - 1 : Nat) : Int) != -1) = true := by
        simp only [bne_iff_ne, ne_eq]
        omega
      have hb2 : decide (((t.mainline.length - 1 : Nat) : Int) + 1
          < ((t.mainline ++ [n]).length : Int)) = true := by
        simp only [decide_eq_true_eq, List.length_append, List.length_cons, List.length_nil]
        push_cast
        omega
      rw [hb1, hb2]
      rfl
    rw [if_pos hcond]
    rw [show ((((t.mainline.length - 1 : Nat) : Int) + 1)).toNat = t.mainline.length by omega]
    rw [List.get?_append_right (le_refl t.mainline.length)]
    simp only [Nat.sub_self, List.get?]
    rw [hmove]
    simp [movesMatch]
  simp only [MoveTree.addMove, h1, hfe]

theorem findExistingMove_succ (t : MoveTree) (pn : MoveNode) (move : MoveDetail)
    (j : Nat) (nm : MoveNode)
    (hpm : pn.isMainline = true)
    (hj : findIdxFrom (fun nd => nd.id == pn.id) t.mainline 0 = some j)
    (hlt : (j : Int) + 1 < (t.mainline.length : Int))
    (hnm : t.mainline.get? (j + 1) = some nm) :
    t.findExistingMove pn move
      = (if movesMatch nm.move move then some nm else t.childLookup pn.children move) := by
  have hgni : t.getNodeIndex pn = (j : Int) := getNodeIndex_eq t pn j hj
  simp only [MoveTree.findExistingMove, hpm, if_true, hgni]
  have hcond : (((j : Int) != -1) && (decide ((j : Int) + 1 < (t.mainline.length : Int))))
      = true := by
    have hb1 : ((j : Int) != -1) = true := by
      simp only [bne_iff_ne, ne_eq]
      omega
    rw [hb1, decide_eq_true hlt]
    rfl
  rw [if_pos hcond]
  rw [show (((j : Int) + 1)).toNat = j + 1 by omega]
  rw [hnm]
  try dsimp only
  cases hmm : movesMatch nm.move move with
  | true => simp
  | false => simp

theorem findExistingMove_nosucc (t : MoveTree) (pn : MoveNode) (move : MoveDetail)
    (h : pn.isMainline = false
      ∨ findIdxFrom (fun nd => nd.id == pn.id) t.mainline 0 = none
      ∨ (∃ j : Nat, findIdxFrom (fun nd => nd.id == pn.id) t.mainline 0 = some j
          ∧ ¬ ((j : Int) + 1 < (t.mainline.length : Int)))) :
    t.findExistingMove pn move = t.childLookup pn.children move := by
  rcases h with hpm | hnone | ⟨j, hj, hnlt⟩
  · simp only [MoveTree.findExistingMove, hpm]
    rfl
  · have hgni : t.getNodeIndex pn = -1 := by
      unfold MoveTree.getNodeIndex
      rw [hnone]
    simp only [MoveTree.findExistingMove, hgni]
    cases hpm : pn.isMainline with
    | false => rfl
    | true =>
        simp only [if_true]
        rw [show (((-1 : Int) != -1) && (decide ((-1 : Int) + 1 < (t.mainline.length : Int))))
            = false from rfl]
        rfl
  · have hgni : t.getNodeIndex pn = (j : Int) := getNodeIndex_eq t pn j hj
    simp only [MoveTree.findExistingMove, hgni]
    cases hpm : pn.isMainline with
    | false => rfl
    | true =>
        simp only [if_true]
        rw [show (((j : Int) != -1) && (decide ((j : Int) + 1 < (t.mainline.length : Int))))
            = false by rw [decide_eq_false hnlt]; exact Bool.and_false _]
        rfl


theorem addMove_again_variation (t : MoveTree) (eng : RulesEngine) (move : MoveDetail)
    (parentId : String) (parent n : MoveNode) (c : Nat)
    (hp : mapGet t.nodeMap parentId = some parent)
    (hfr : mapGet t.nodeMap n.id = none)
    (hmove : n.move = some move)
    (hf : t.findExistingMove parent move = none)
    (hnodup : (t.mainline.map (fun nd => nd.id)).Nodup) :
    MoveTree.addMove
      ({ t with
        idCounter := c,
        mainline := t.mainline.map (fun nd =>
          if nd.id == parent.id then { parent with children := parent.children ++ [n.id] } else nd),
        nodeMap := mapSet (mapSet t.nodeMap parentId
          { parent with children := parent.children ++ [n.id] }) n.id n }) eng move parentId
      = (some n, { t with
        idCounter := c,
        mainline := t.mainline.map (fun nd =>
          if nd.id == parent.id then { parent with children := parent.children ++ [n.id] } else nd),
        nodeMap := mapSet (mapSet t.nodeMap parentId
          { parent with children := parent.children ++ [n.id] }) n.id n }) := by
  have hneq : n.id ≠ parentId := by
    intro h
    rw [h, hp] at hfr
    exact Option.noConfusion hfr
  have h1 : mapGet (mapSet (mapSet t.nodeMap parentId
      { parent with children := parent.children ++ [n.id] }) n.id n) parentId
      = some ({ parent with children := parent.children ++ [n.id] }) := by
    rw [mapGet_mapSet_ne _ _ _ _ (Ne.symm hneq), mapGet_mapSet_self]
  have hidpres : ∀ x : MoveNode,
      (((if x.id == parent.id then { parent with children := parent.children ++ [n.id] } else x)).id == parent.id)
        = (x.id == parent.id) := by
    intro x
    by_cases hx : x.id = parent.id
    · rw [if_pos (by simp [hx])]
      simp [hx]
    · rw [if_neg (by simp [hx])]
  have hfind1 : findIdxFrom (fun nd => nd.id == parent.id)
        (t.mainline.map (fun nd =>
          if nd.id == parent.id then { parent with children := parent.children ++ [n.id] } else nd)) 0
      = findIdxFrom (fun nd => nd.id == parent.id) t.mainline 0 :=
    findIdxFrom_map_preserve _ _ hidpres t.mainline 0
  have hlen1 : (t.mainline.map (fun nd =>
          if nd.id == parent.id then { parent with children := parent.children ++ [n.id] } else nd)).length = t.mainline.length :=
    List.length_map _ _
  by_cases hpmb : parent.isMainline = true
  case neg =>
      have hpm : parent.isMainline = false := by
        simpa using hpmb
      have hchild : t.childLookup parent.children move = none := by
        rw [← findExistingMove_nosucc t parent move (Or.inl hpm)]
        exact hf
      have hfe2 : MoveTree.findExistingMove ({ t with
        idCounter := c,
        mainline := t.mainline.map (fun nd =>
          if nd.id == parent.id then { parent with children := parent.children ++ [n.id] } else nd),
        nodeMap := mapSet (mapSet t.nodeMap parentId
          { parent with children := parent.children ++ [n.id] }) n.id n })
          ({ parent with children := parent.children ++ [n.id] }) move = some n := by
        rw [findExistingMove_nosucc ({ t with
        idCounter := c,
        mainline := t.mainline.map (fun nd =>
          if nd.id == parent.id then { parent with children := parent.children ++ [n.id] } else nd),
        nodeMap := mapSet (mapSet t.nodeMap parentId
          { parent with children := parent.children ++ [n.id] }) n.id n })
          ({ parent with children := parent.children ++ [n.id] }) move (Or.inl hpm)]
        exact findSomeChild_upd t.nodeMap move parentId parent
          ({ parent with children := parent.children ++ [n.id] }) n hp hfr rfl hmove parent.children hchild
      simp only [MoveTree.addMove, h1, hfe2]
  case pos =>
      cases hs : findIdxFrom (fun nd => nd.id == parent.id) t.mainline 0 with
      | none =>
          have hchild : t.childLookup parent.children move = none := by
            rw [← findExistingMove_nosucc t parent move (Or.inr (Or.inl hs))]
            exact hf
          have hs1 : findIdxFrom (fun nd => nd.id == parent.id)
              (t.mainline.map (fun nd =>
          if nd.id == parent.id then { parent with children := parent.children ++ [n.id] } else nd)) 0 = none := by
            rw [hfind1, hs]
          have hfe2 : MoveTree.findExistingMove ({ t with
        idCounter := c,
        mainline := t.mainline.map (fun nd =>
          if nd.id == parent.id then { parent with children := parent.children ++ [n.id] } else nd),
        nodeMap := mapSet (mapSet t.nodeMap parentId
          { parent with children := parent.children ++ [n.id] }) n.id n })
              ({ parent with children := parent.children ++ [n.id] }) move = some n := by
            rw [findExistingMove_nosucc ({ t with
        idCounter := c,
        mainline := t.mainline.map (fun nd =>
          if nd.id == parent.id then { parent with children := parent.children ++ [n.id] } else nd),
        nodeMap := mapSet (mapSet t.nodeMap parentId
          { parent with children := parent.children ++ [n.id] }) n.id n })
              ({ parent with children := parent.children ++ [n.id] }) move (Or.inr (Or.inl hs1))]
            exact findSomeChild_upd t.nodeMap move parentId parent
              ({ parent with children := parent.children ++ [n.id] }) n hp hfr rfl hmove parent.children hchild
          simp only [MoveTree.addMove, h1, hfe2]
      | some j =>
          by_cases hlt : ((j : Int) + 1 < (t.mainline.length : Int))
          · have hjlen : j + 1 < t.mainline.length := by omega
            obtain ⟨nm, hnm⟩ : ∃ nm, t.mainline.get? (j + 1) = some nm :=
              ⟨t.mainline.get ⟨j + 1, hjlen⟩, List.get?_eq_get hjlen⟩
            rw [findExistingMove_succ t parent move j nm hpmb hs hlt hnm] at hf
            cases hmm : movesMatch nm.move move with
            | true => rw [hmm] at hf; simp at hf
            | false =>
                rw [hmm] at hf
                simp only [Bool.false_eq_true, if_false] at hf
                obtain ⟨-, x, hxget, hxp⟩ := findIdxFrom_found _ _ _ _ hs
                have hxid : x.id = parent.id := by simpa using hxp
                have hnmne : nm.id ≠ parent.id := by
                  rw [← hxid]
                  exact nodup_map_get_ne t.mainline (j + 1) j nm x hnodup hnm
                    (by simpa using hxget) (by omega)
                have hnm1 : (t.mainline.map (fun nd =>
          if nd.id == parent.id then { parent with children := parent.children ++ [n.id] } else nd)).get? (j + 1)
                    = some nm := by
                  rw [List.get?_map, hnm]
                  simp only [Option.map_some']
                  rw [if_neg (by simp [hnmne])]
                have hs1 : findIdxFrom (fun nd => nd.id == parent.id)
                    (t.mainline.map (fun nd =>
          if nd.id == parent.id then { parent with children := parent.children ++ [n.id] } else nd)) 0 = some j := by
                  rw [hfind1, hs]
                have hlt1 : (j : Int) + 1
                    < (((t.mainline.map (fun nd =>
          if nd.id == parent.id then { parent with children := parent.children ++ [n.id] } else nd)).length : Nat) : Int) := by
                  rw [hlen1]
                  exact hlt
                have hfe2 : MoveTree.findExistingMove ({ t with
        idCounter := c,
        mainline := t.mainline.map (fun nd =>
          if nd.id == parent.id then { parent with children := parent.children ++ [n.id] } else nd),
        nodeMap := mapSet (mapSet t.nodeMap parentId
          { parent with children := parent.children ++ [n.id] }) n.id n })
                    ({ parent with children := parent.children ++ [n.id] }) move = some n := by
                  rw [findExistingMove_succ ({ t with
        idCounter := c,
        mainline := t.mainline.map (fun nd =>
          if nd.id == parent.id then { parent with children := parent.children ++ [n.id] } else nd),
        nodeMap := mapSet (mapSet t.nodeMap parentId
          { parent with children := parent.children ++ [n.id] }) n.id n })
                    ({ parent with children := parent.children ++ [n.id] }) move j nm hpmb hs1 hlt1 hnm1, hmm]
                  simp only [Bool.false_eq_true, if_false]
                  exact findSomeChild_upd t.nodeMap move parentId parent
                    ({ parent with children := parent.children ++ [n.id] }) n hp hfr rfl hmove parent.children hf
                simp only [MoveTree.addMove, h1, hfe2]
          · have hchild : t.childLookup parent.children move = none := by
              rw [← findExistingMove_nosucc t parent move (Or.inr (Or.inr ⟨j, hs, hlt⟩))]
              exact hf
            have hs1 : findIdxFrom (fun nd => nd.id == parent.id)
                (t.mainline.map (fun nd =>
          if nd.id == parent.id then { parent with children := parent.children ++ [n.id] } else nd)) 0 = some j := by
              rw [hfind1, hs]
            have hlt1 : ¬ ((j : Int) + 1
                < (((t.mainline.map (fun nd =>
          if nd.id == parent.id then { parent with children := parent.children ++ [n.id] } else nd)).length : Nat) : Int)) := by
              rw [hlen1]
              exact hlt
            have hfe2 : MoveTree.findExistingMove ({ t with
        idCounter := c,
        mainline := t.mainline.map (fun nd =>
          if nd.id == parent.id then { parent with children := parent.children ++ [n.id] } else nd),
        nodeMap := mapSet (mapSet t.nodeMap parentId
          { parent with children := parent.children ++ [n.id] }) n.id n })
                ({ parent with children := parent.children ++ [n.id] }) move = some n := by
              rw [findExistingMove_nosucc ({ t with
        idCounter := c,
        mainline := t.mainline.map (fun nd =>
          if nd.id == parent.id then { parent with children := parent.children ++ [n.id] } else nd),
        nodeMap := mapSet (mapSet t.nodeMap parentId
          { parent with children := parent.children ++ [n.id] }) n.id n })
                ({ parent with children := parent.children ++ [n.id] }) move (Or.inr (Or.inr ⟨j, hs1, hlt1⟩))]
              exact findSomeChild_upd t.nodeMap move parentId parent
                ({ parent with children := parent.children ++ [n.id] }) n hp hfr rfl hmove parent.children hchild
            simp only [MoveTree.addMove, h1, hfe2]

/-- Claim C4: calling `addMove` twice with the same move and parent is
idempotent: whenever the first call returns a node (pre-existing or newly
created under a fresh id), the second call returns that very node and
leaves the tree of the first call completely unchanged (in particular the
mainline length and every node's children count are unchanged). -/
theorem c4_addMove_idempotent (t : MoveTree) (eng : RulesEngine) (move : MoveDetail)
    (parentId : String) (n : MoveNode) (t1 : MoveTree)
    (hcall : t.addMove eng move parentId = (some n, t1))
    (hnodup : (t.mainline.map (fun nd => nd.id)).Nodup)
    (hlen0 : 0 < t.mainline.length)
    (hfresh : mapGet t.nodeMap n.id = none
      ∨ ∃ pn, mapGet t.nodeMap parentId = some pn ∧ t.findExistingMove pn move = some n) :
    t1.addMove eng move parentId = (some n, t1) := by
  cases hp : mapGet t.nodeMap parentId with
  | none =>
      simp only [MoveTree.addMove, hp] at hcall
      simp at hcall
  | some parent =>
      cases hf : t.findExistingMove parent move with
      | some ex =>
          simp only [MoveTree.addMove, hp, hf] at hcall
          have ht : t = t1 := by
            have h := congrArg Prod.snd hcall
            simpa using h
          rw [← ht] at hcall ⊢
          simp only [MoveTree.addMove, hp, hf]
          exact hcall
      | none =>
          have hfr : mapGet t.nodeMap n.id = none := by
            rcases hfresh with h | ⟨pn, hpn, hex⟩
            · exact h
            · rw [hp] at hpn
              have hpe : parent = pn := Option.some.inj hpn
              rw [← hpe] at hex
              rw [hf] at hex
              exact Option.noConfusion hex
          simp only [MoveTree.addMove, hp, hf] at hcall
          by_cases hmain : (parent.isMainline
              && (t.getNodeIndex parent == (t.mainline.length : Int) - 1)) = true
          · rw [if_pos hmain] at hcall
            have hn1 := congrArg Prod.fst hcall
            have ht := congrArg Prod.snd hcall
            dsimp only at hn1 ht
            have hn2 := Option.some.inj hn1
            rw [Bool.and_eq_true] at hmain
            obtain ⟨hpmain, hidxb⟩ := hmain
            have hidx : t.getNodeIndex parent = (t.mainline.length : Int) - 1 := by
              simpa using hidxb
            cases hsx : findIdxFrom (fun nd => nd.id == parent.id) t.mainline 0 with
            | none =>
                exfalso
                have hm1 : t.getNodeIndex parent = -1 := by
                  unfold MoveTree.getNodeIndex
                  rw [hsx]
                rw [hm1] at hidx
                omega
            | some j =>
                have hj : (j : Int) = (t.mainline.length : Int) - 1 := by
                  have hg : t.getNodeIndex parent = (j : Int) := getNodeIndex_eq t parent j hsx
                  rw [hg] at hidx
                  exact hidx
                have hsx2 : findIdxFrom (fun nd => nd.id == parent.id) t.mainline 0
                    = some (t.mainline.length - 1) := by
                  rw [show t.mainline.length - 1 = j by omega]
                  exact hsx
                have hmove : n.move = some move := by rw [← hn2]
                have happ := addMove_again_mainline t eng move parentId parent n
                  (t.idCounter + 1) hp hfr hmove hpmain hsx2 hlen0
                have ht1 : t1 = { t with
                    idCounter := t.idCounter + 1,
                    mainline := t.mainline ++ [n],
                    final := some n.id,
                    nodeMap := mapSet t.nodeMap n.id n } := by
                  rw [← ht, ← hn2]
                rw [ht1]
                exact happ
          · rw [if_neg hmain] at hcall
            have hn1 := congrArg Prod.fst hcall
            have ht := congrArg Prod.snd hcall
            dsimp only at hn1 ht
            have hn2 := Option.some.inj hn1
            have hmove : n.move = some move := by rw [← hn2]
            have happ := addMove_again_variation t eng move parentId parent n
              (t.idCounter + 1) hp hfr hmove hf hnodup
            have ht1 : t1 = { t with
                idCounter := t.idCounter + 1,
                mainline := t.mainline.map (fun nd =>
                  if nd.id == parent.id then { parent with children := parent.children ++ [n.id] } else nd),
                nodeMap := mapSet (mapSet t.nodeMap parentId
                  { parent with children := parent.children ++ [n.id] }) n.id n } := by
              rw [← ht, ← hn2]
            rw [ht1]
            exact happ

/-- The node returned by the first fixture `addMove` call (the variation
`d` under the second mainline node). -/
def c4n : MoveNode := ((c12base.addMove testEngine mdD "move_1_b_b").1).getD rootInit

/-- Witness for C4: on the fixture tree the second identical `addMove`
call returns the same node and the unchanged tree. -/
theorem c4_addMove_idempotent_witness :
    c12tree.addMove testEngine mdD "move_1_b_b" = (some c4n, c12tree) :=
  c4_addMove_idempotent c12base testEngine mdD "move_1_b_b" c4n c12tree
    (by rfl) (by decide) (by decide) (Or.inl (by rfl))

/-- Witness for C5 at a concrete non-tip parent. -/
theorem c5_branch_isolation_witness :
    (c12base.addMove testEngine mdD "move_1_w_a").2.mainline.map (fun nd => nd.id)
        = c12base.mainline.map (fun nd => nd.id)
    ∧ (c12base.addMove testEngine mdD "move_1_w_a").2.mainline.length
        = c12base.mainline.length :=
  c5_branch_isolation c12base testEngine mdD "move_1_w_a" (by decide)

/-- The second mainline node of the fixture tree. -/
def c6n : MoveNode := (c12base.mainline.get? 2).getD rootInit

/-- Witness for C6 at the second mainline node of the fixture tree. -/
theorem c6_nav_symmetry_witness :
    ∃ p, ({ c12base with currentNode := some c6n.id } : MoveTree).getPreviousMove = some p
      ∧ ({ c12base with currentNode := some p.id } : MoveTree).getNextMove = some c6n :=
  c6_nav_symmetry c12base 2 c6n (by decide) (by rfl) (by decide)
    (by intro nd hnd; fin_cases hnd <;> rfl)
